import Mathlib

set_option maxHeartbeats 1000000
set_option maxRecDepth 100000

/-!
Verification development for the hytale-scanner repository.

The Python sources are shallowly embedded: the durable progress file is a
list of lines (strings without their trailing newline), the results file is
a list of lines, the in-memory consumed-blocks set is a finite set of
strings, IPv4 networks are pairs of a base address and a prefix length over
Nat, and the asynchronous worker loop is a small-step machine whose
interleavings with the signal handler are schedules of moves.
-/

/-! ## Claim Store (src/coordinator.py) -/

/-- Whitespace recognizer modelling the default charset of Python
str.strip(): space, tab, newline, carriage return, vertical tab, form feed. -/
def pyWhitespace (c : Char) : Bool :=
  c == ' ' || c == '\t' || c == '\n' || c == '\r' ||
    c == Char.ofNat 11 || c == Char.ofNat 12

/-- Model of Python str.strip(): drop leading and trailing whitespace. -/
def pyStrip (s : String) : String :=
  String.mk (((s.data.dropWhile pyWhitespace).reverse.dropWhile pyWhitespace).reverse)

/-- State of one BlockClaimCoordinator together with its durable file:
`durable` is the list of lines of the progress file (the ground truth),
`mirror` is the in-memory `consumed_blocks` set (coordinator.py:23). -/
structure Store where
  durable : List String
  mirror : Finset String
deriving DecidableEq

/-- The set of claimed block strings computed from the file contents:
stripped non-empty lines.  This is the set claim_block re-reads under the
file lock (coordinator.py:62, `set(line.strip() for line in f if line.strip())`)
and the set load_progress adds to the mirror (coordinator.py:35-39). -/
def consumedOf (durable : List String) : Finset String :=
  (((durable.map pyStrip).filter (fun l => l != "")).toFinset)

/-- BlockClaimCoordinator.claim_block (coordinator.py:42-79): under the
exclusive file lock, re-read the durable lines; if the block string is
already among them return False and change nothing, otherwise append one
line holding the block string (the `\n` is the line terminator absorbed by
the line-list representation), fsync, add it to the in-memory mirror and
return True. -/
def claim_block (block_str : String) (s : Store) : Bool × Store :=
  if block_str ∈ consumedOf s.durable then
    (false, s)
  else
    (true, { durable := s.durable ++ [block_str], mirror := insert block_str s.mirror })

/-- BlockClaimCoordinator.load_progress (coordinator.py:27-40): add every
stripped non-empty line of the progress file to the in-memory mirror
(an absent file behaves as the empty line list). -/
def load_progress (s : Store) : Store :=
  { s with mirror := s.mirror ∪ consumedOf s.durable }

/-- BlockClaimCoordinator.record_found_server (coordinator.py:81-94):
append one line holding the discovered address to the results file
(the `phase` argument is not written). -/
def record_found_server (ip : String) (results : List String) : List String :=
  results ++ [ip]

/-- Number of lines of the durable store that record the block string `b`:
lines whose stripped form equals `b`. -/
def countRecords (b : String) (durable : List String) : Nat :=
  durable.countP (fun l => pyStrip l == b)

/-- A canonical block string as produced by Python str(IPv4Network):
non-empty and free of surrounding whitespace. -/
def Canonical (b : String) : Prop := pyStrip b = b ∧ b ≠ ""

instance (b : String) : Decidable (Canonical b) := by
  unfold Canonical; infer_instance

/-- Running a sequence of claim_block calls in order against one shared
durable file, threading the store state. -/
def runClaims : List String → Store → List Bool × Store
  | [], s => ([], s)
  | c :: rest, s =>
      let r := claim_block c s
      let t := runClaims rest r.2
      (r.1 :: t.1, t.2)

/-- The results of exactly those calls of the sequence that were made for
block `b`, in call order. -/
def resultsFor (b : String) (calls : List String) (results : List Bool) : List Bool :=
  (calls.zip results).filterMap (fun x => if x.1 = b then some x.2 else none)

/-! ## Combined system operations over the shared files (coordinator.py) -/

/-- The two shared durable files: the Claim Store (progress) with its
in-memory mirror, and the Result Sink (results). -/
structure SysState where
  store : Store
  results : List String
deriving DecidableEq

/-- The operations of BlockClaimCoordinator that touch the shared files. -/
inductive SysOp
  | claim (b : String)
  | load
  | recordFound (ip : String) (phase : String)
deriving DecidableEq

def applySysOp : SysOp → SysState → SysState
  | .claim b, s => { s with store := (claim_block b s.store).2 }
  | .load, s => { s with store := load_progress s.store }
  | .recordFound ip _, s => { s with results := record_found_server ip s.results }

def applySysOps (ops : List SysOp) (s : SysState) : SysState :=
  ops.foldl (fun t op => applySysOp op t) s

/-! ## IPv4 networks (src/block_generator.py, src/config.py) -/

/-- An ipaddress.IPv4Network value: base address (as a 32-bit integer held
in a Nat) plus prefix length. -/
structure IPv4Network where
  network_address : Nat
  prefixlen : Nat
deriving DecidableEq

/-- ipaddress num_addresses: 2^(32 - prefixlen). -/
def num_addresses (n : IPv4Network) : Nat := 2 ^ (32 - n.prefixlen)

/-- ipaddress broadcast_address as an integer: the last address of the
network. -/
def broadcast_address (n : IPv4Network) : Nat :=
  n.network_address + num_addresses n - 1

/-- Python `addr in network`: the integer lies between the network address
and the broadcast address inclusive. -/
def mem_network (n : IPv4Network) (x : Nat) : Prop :=
  n.network_address ≤ x ∧ x ≤ broadcast_address n

instance (n : IPv4Network) (x : Nat) : Decidable (mem_network n x) := by
  unfold mem_network; infer_instance

/-- ipaddress.IPv4Network.overlaps: either network address or broadcast
address of one side lies inside the other. -/
def overlaps (a b : IPv4Network) : Prop :=
  mem_network b a.network_address ∨ mem_network b (broadcast_address a) ∨
    mem_network a b.network_address ∨ mem_network a (broadcast_address b)

instance (a b : IPv4Network) : Decidable (overlaps a b) := by
  unfold overlaps; infer_instance

/-- ipaddress subnet_of: the other network spans at least this one. -/
def subnet_of (a b : IPv4Network) : Prop :=
  b.network_address ≤ a.network_address ∧
    broadcast_address a ≤ broadcast_address b

instance (a b : IPv4Network) : Decidable (subnet_of a b) := by
  unfold subnet_of; infer_instance

/-- config.py SKIP_RANGES: 0.0.0.0/8, 10.0.0.0/8, 127.0.0.0/8,
169.254.0.0/16, 172.16.0.0/12, 192.168.0.0/16, 224.0.0.0/4, 240.0.0.0/4,
255.255.255.255/32, base addresses written as integers. -/
def SKIP_RANGES : List IPv4Network :=
  [⟨0, 8⟩, ⟨167772160, 8⟩, ⟨2130706432, 8⟩, ⟨2851995648, 16⟩,
   ⟨2886729728, 12⟩, ⟨3232235520, 16⟩, ⟨3758096384, 4⟩,
   ⟨4026531840, 4⟩, ⟨4294967295, 32⟩]

/-- IPBlockGenerator.__init__ (block_generator.py:21):
`self.mask = (1 << 32) - (1 << (32 - block_size_bits))`. -/
def ipMask (block_size_bits : Nat) : Nat :=
  (1 <<< 32) - (1 <<< (32 - block_size_bits))

/-- Strict construction ipaddress.IPv4Network(addr/p, strict=True): defined
exactly when the address is a 32-bit value, the prefix length is at most 32
and no host bit is set; otherwise the constructor raises. -/
def ipv4_network_strict (addr : Nat) (p : Nat) : Option IPv4Network :=
  if addr < 2 ^ 32 ∧ p ≤ 32 ∧ addr % 2 ^ (32 - p) = 0 then
    some ⟨addr, p⟩
  else
    none

/-- IPBlockGenerator.is_valid_block (block_generator.py:22-35): false iff
the block is a subnet of, or overlaps, some skip range. -/
def is_valid_block (block : IPv4Network) : Bool :=
  SKIP_RANGES.all
    (fun r => !(decide (subnet_of block r) || decide (overlaps block r)))

/-- IPBlockGenerator.generate_random_block (block_generator.py:37-61):
draws is the stream of values produced by secrets.randbelow(2**32); each is
masked to the block boundary, strictly constructed, filtered through
is_valid_block, and on any failure the loop redraws.  The Python loop is
unbounded; the model returns none when the finite draw stream is
exhausted. -/
def generate_random_block (block_size_bits : Nat) : List Nat → Option IPv4Network
  | [] => none
  | r :: rest =>
      let network_int := r &&& ipMask block_size_bits
      match ipv4_network_strict network_int block_size_bits with
      | some block =>
          if is_valid_block block then some block
          else generate_random_block block_size_bits rest
      | none => generate_random_block block_size_bits rest

/-- Decimal digit string back to a number; proof-side left inverse of
Nat.repr used for injectivity of the dotted-quad rendering. -/
def digits_to_nat (l : List Char) : Nat :=
  l.foldl (fun acc c => acc * 10 + (c.toNat - 48)) 0

/-- str(IPv4Address(n)): the dotted quad of the four octets, most
significant first. -/
def ip_to_string (n : Nat) : String :=
  Nat.repr (n / 16777216 % 256) ++ "." ++ Nat.repr (n / 65536 % 256) ++ "." ++
    Nat.repr (n / 256 % 256) ++ "." ++ Nat.repr (n % 256)

/-- IPBlockGenerator.block_to_ips (block_generator.py:63-74):
`[str(ip) for ip in block]`; iterating an IPv4Network yields every address
from the network address to the broadcast address inclusive, in ascending
order. -/
def block_to_ips (block : IPv4Network) : List String :=
  (List.range (num_addresses block)).map
    (fun i => ip_to_string (block.network_address + i))

/-! ## Probe (src/quic_scanner.py, src/scanner_core.py) -/

/-- Outcome of one QUIC probe attempt: the awaited wait either saw the
handshake complete, saw the connection terminate, or timed out with neither
event; or an exception escaped the attempt. -/
inductive ProbeOutcome
  | handshakeCompleted
  | connectionTerminated
  | waitTimedOut
  | timeoutError
  | osError (msg : String)
  | unexpectedError (msg : String)
deriving DecidableEq

/-- The try-block body of scan_quic_server (quic_scanner.py:41-86): ok with
handshake_complete.is_set() when the wait finishes, error when an exception
is raised. -/
def scan_quic_server_body : ProbeOutcome → Except String Bool
  | .handshakeCompleted => .ok true
  | .connectionTerminated => .ok false
  | .waitTimedOut => .ok false
  | .timeoutError => .error "TimeoutError"
  | .osError m => .error m
  | .unexpectedError m => .error m

/-- scan_quic_server (quic_scanner.py:33-94): True iff the handshake
completed; the except clauses catch asyncio.TimeoutError, OSError and any
other Exception and return False, so no outcome propagates. -/
def scan_quic_server (o : ProbeOutcome) : Bool :=
  match scan_quic_server_body o with
  | .ok b => b
  | .error _ => false

/-- scan_ip_two_phase (scanner_core.py:66-89): run the QUIC probe; on
success append the address to the Result Sink via record_found_server,
otherwise leave the results unchanged. -/
def scan_ip_two_phase (outcome : ProbeOutcome) (ip : String)
    (results : List String) : List String :=
  if scan_quic_server outcome then record_found_server ip results else results

/-! ## Worker (src/worker.py) as a small-step machine

Worker.run and Worker.claim_unclaimed_block suspend at every await; the
graceful-shutdown signal handler (scanner.py) runs between suspensions.  A
schedule is a list of moves: `work` performs the worker's next step, `env`
models the first SIGINT (set the graceful shutdown_event), `force` models
the second SIGINT (task cancellation: the worker stops where it is; the
store is untouched). -/

/-- config.py:52. -/
def MAX_CLAIM_ATTEMPTS : Nat := 1000

/-- Worker environment: `cands` is the stream of canonical block strings
produced by generator.generate_random_block(), `ipsPerBlock` the uniform
number of addresses per block (2^(32-p), e.g. 256 for /24). -/
structure WParams where
  cands : Nat → String
  ipsPerBlock : Nat

/-- Observable events of one worker run, in order of occurrence. -/
inductive WEvent
  | flagSet
  | claimCall (b : String) (granted : Bool)
  | scanStart (b : String)
  | probeOne (b : String)
  | scanDone (b : String)
  | exited
  | cancelled
deriving DecidableEq

/-- Program counter of the worker: top of the run-while loop; entry of
claim_unclaimed_block (where shutdown_event is checked); inside the
for-range attempt loop with the given attempts remaining; scanning the
claimed block with the given addresses remaining; exited. -/
inductive WPc
  | loopTop
  | acquireEntry
  | attempt (remaining : Nat)
  | scanning (b : String) (remaining : Nat)
  | done
deriving DecidableEq

structure WState where
  pc : WPc
  flag : Bool
  store : Store
  drawIdx : Nat
  trace : List WEvent
deriving DecidableEq

/-- One worker step (worker.py:48-128): the loop top and the
claim_unclaimed_block entry check shutdown_event; each attempt samples the
next candidate and calls claim_block, scanning on success, counting down on
failure; attempt exhaustion and shutdown observations exit the loop;
scanning probes each address and never consults the graceful flag. -/
def wstep (P : WParams) (s : WState) : WState :=
  match s.pc with
  | .loopTop =>
      if s.flag then { s with pc := .done, trace := s.trace ++ [.exited] }
      else { s with pc := .acquireEntry }
  | .acquireEntry =>
      if s.flag then { s with pc := .done, trace := s.trace ++ [.exited] }
      else { s with pc := .attempt MAX_CLAIM_ATTEMPTS }
  | .attempt 0 => { s with pc := .done, trace := s.trace ++ [.exited] }
  | .attempt (k+1) =>
      let c := P.cands s.drawIdx
      let r := claim_block c s.store
      if r.1 then
        { s with pc := .scanning c P.ipsPerBlock, store := r.2,
                 drawIdx := s.drawIdx + 1,
                 trace := s.trace ++ [.claimCall c true, .scanStart c] }
      else
        { s with pc := .attempt k, store := r.2, drawIdx := s.drawIdx + 1,
                 trace := s.trace ++ [.claimCall c false] }
  | .scanning b 0 => { s with pc := .loopTop, trace := s.trace ++ [.scanDone b] }
  | .scanning b (k+1) =>
      { s with pc := .scanning b k, trace := s.trace ++ [.probeOne b] }
  | .done => s

/-- A schedule move: worker step, graceful signal, forced cancellation. -/
inductive Move
  | env
  | force
  | work
deriving DecidableEq

def applyMove (P : WParams) (s : WState) : Move → WState
  | .env => { s with flag := true, trace := s.trace ++ [.flagSet] }
  | .force => { s with pc := .done, trace := s.trace ++ [.cancelled] }
  | .work => wstep P s

def runW (P : WParams) (moves : List Move) (s : WState) : WState :=
  moves.foldl (applyMove P) s

def isClaimCall : WEvent → Bool
  | .claimCall _ _ => true
  | _ => false

def claimCallCount (tr : List WEvent) : Nat := tr.countP isClaimCall

def workMoveCount (moves : List Move) : Nat :=
  moves.countP (fun m => m == Move.work)

/-! ## Worker acquisition and run loop, functional form (src/worker.py) -/

/-- Result of one acquisition cycle: the claimed block (or none), the store
afterwards, the next draw index, and the results of the claim_block calls
performed, in order. -/
structure AcqResult where
  result : Option String
  store : Store
  nextIdx : Nat
  callResults : List Bool
deriving DecidableEq

/-- The for-range loop of Worker.claim_unclaimed_block (worker.py:83-87). -/
def claim_attempts (P : WParams) : Nat → Nat → Store → AcqResult
  | 0, idx, st => ⟨none, st, idx, []⟩
  | k+1, idx, st =>
      let c := P.cands idx
      let r := claim_block c st
      if r.1 then ⟨some c, r.2, idx + 1, [true]⟩
      else
        let t := claim_attempts P k (idx + 1) r.2
        ⟨t.result, t.store, t.nextIdx, false :: t.callResults⟩

/-- Worker.claim_unclaimed_block (worker.py:72-90): None immediately when
shutdown_event is set, else up to MAX_CLAIM_ATTEMPTS sample-and-claim
attempts. -/
def claim_unclaimed_block (P : WParams) (shutdownSet : Bool) (idx : Nat)
    (st : Store) : AcqResult :=
  if shutdownSet then ⟨none, st, idx, []⟩
  else claim_attempts P MAX_CLAIM_ATTEMPTS idx st

/-- How a worker run ends: saturated = claim_unclaimed_block returned None
and the loop broke (normal completion); gracefulExit = shutdown observed at
the loop top; outOfFuel = model fuel exhausted (not a code path). -/
inductive ExitKind
  | saturated
  | gracefulExit
  | outOfFuel
deriving DecidableEq

/-- Worker.run (worker.py:48-70) with a static shutdown flag, counting
loop iterations by fuel; scan_block touches only the Result Sink, so the
claim store passes through scanning unchanged. -/
def worker_run (P : WParams) : Nat → Bool → Nat → Store → ExitKind × Store
  | 0, _, _, st => (.outOfFuel, st)
  | fuel+1, flag, idx, st =>
      if flag then (.gracefulExit, st)
      else
        let a := claim_unclaimed_block P flag idx st
        match a.result with
        | none => (.saturated, a.store)
        | some _ => worker_run P fuel flag a.nextIdx a.store

/-! ### Basic Claim Store lemmas -/

theorem mem_consumedOf {b : String} (hb : b ≠ "") (d : List String) :
    b ∈ consumedOf d ↔ 0 < countRecords b d := by
  unfold consumedOf countRecords
  rw [List.mem_toFinset, List.mem_filter, List.countP_pos_iff]
  constructor
  · rintro ⟨hmem, -⟩
    rcases List.mem_map.mp hmem with ⟨l, hl, hstrip⟩
    exact ⟨l, hl, by simp [hstrip]⟩
  · rintro ⟨l, hl, hpl⟩
    have hpl' : pyStrip l = b := by simpa using hpl
    refine ⟨List.mem_map.mpr ⟨l, hl, hpl'⟩, ?_⟩
    simpa [hpl'] using hb

theorem claim_block_true_iff {b : String} (hb : Canonical b) (s : Store) :
    ((claim_block b s).1 = true ↔ countRecords b s.durable = 0) := by
  unfold claim_block
  by_cases h : b ∈ consumedOf s.durable
  · have hpos := (mem_consumedOf hb.2 s.durable).mp h
    simp [h]
    omega
  · have hz : ¬ 0 < countRecords b s.durable := fun hpos =>
      h ((mem_consumedOf hb.2 s.durable).mpr hpos)
    simp [h]
    omega

theorem claim_block_false_store {b : String} {s : Store}
    (h : (claim_block b s).1 = false) : (claim_block b s).2 = s := by
  unfold claim_block at h ⊢
  by_cases hm : b ∈ consumedOf s.durable
  · simp [hm]
  · simp [hm] at h

theorem claim_block_true_store {b : String} {s : Store}
    (h : (claim_block b s).1 = true) :
    (claim_block b s).2.durable = s.durable ++ [b] := by
  unfold claim_block at h ⊢
  by_cases hm : b ∈ consumedOf s.durable
  · simp [hm] at h
  · simp [hm]

theorem countRecords_append_single (b c : String) (d : List String) :
    countRecords b (d ++ [c]) =
      countRecords b d + (if pyStrip c = b then 1 else 0) := by
  unfold countRecords
  rw [List.countP_append]
  by_cases h : pyStrip c = b <;> simp [List.countP_cons, h]

/-- C2 main theorem (stated below); this is the underlying claim-transition
characterization reused across claims.  The durable part of the state after
a claim_block call. -/
theorem claim_block_durable_cases (b : String) (s : Store) :
    (claim_block b s).2.durable = s.durable ∨
      (claim_block b s).2.durable = s.durable ++ [b] := by
  unfold claim_block
  by_cases hm : b ∈ consumedOf s.durable <;> simp [hm]

/-- How one claim_block call changes the record count of a (canonical)
block `b`, when the claimed string `c` is canonical as well. -/
theorem countRecords_claim (b c : String) (hc : pyStrip c = c) (s : Store) :
    countRecords b (claim_block c s).2.durable =
      countRecords b s.durable +
        (if (claim_block c s).1 = true ∧ c = b then 1 else 0) := by
  by_cases h : (claim_block c s).1 = true
  · rw [claim_block_true_store h, countRecords_append_single, hc]
    by_cases hcb : c = b
    · subst hcb; simp [h]
    · simp [h, hcb]
  · have hf : (claim_block c s).1 = false := by
      cases hr : (claim_block c s).1 <;> simp_all
    rw [claim_block_false_store hf]
    simp [hf]

theorem resultsFor_nil (b : String) (results : List Bool) :
    resultsFor b [] results = [] := by
  simp [resultsFor]

theorem resultsFor_cons (b c : String) (calls : List String) (x : Bool) (xs : List Bool) :
    resultsFor b (c :: calls) (x :: xs) =
      if c = b then x :: resultsFor b calls xs else resultsFor b calls xs := by
  unfold resultsFor
  by_cases h : c = b <;> simp [List.zip_cons_cons, List.filterMap_cons, h]

theorem claim_block_false_of_pos {b : String} (hb : Canonical b) {s : Store}
    (hpos : 0 < countRecords b s.durable) : (claim_block b s).1 = false := by
  cases hr : (claim_block b s).1
  · rfl
  · have := (claim_block_true_iff hb s).mp hr
    omega

/-- While `b` is recorded in the durable file, every later claim_block call
for `b` returns false, and the number of records of `b` never changes. -/
theorem runClaims_claimed (b : String) (hb : Canonical b) :
    ∀ (calls : List String) (s : Store), (∀ c ∈ calls, pyStrip c = c) →
      0 < countRecords b s.durable →
      ((∀ x ∈ resultsFor b calls (runClaims calls s).1, x = false) ∧
        countRecords b (runClaims calls s).2.durable = countRecords b s.durable)
  | [], s, _, _ => by
      simp [runClaims, resultsFor_nil]
  | c :: rest, s, hcanon, hpos => by
      have hc : pyStrip c = c := hcanon c (List.mem_cons_self c rest)
      have hrest : ∀ x ∈ rest, pyStrip x = x := fun x hx =>
        hcanon x (List.mem_cons_of_mem c hx)
      have hstep : countRecords b (claim_block c s).2.durable =
          countRecords b s.durable := by
        rw [countRecords_claim b c hc s]
        by_cases hcb : c = b
        · subst hcb
          simp [claim_block_false_of_pos hb hpos]
        · simp [hcb]
      have hpos' : 0 < countRecords b (claim_block c s).2.durable := by omega
      have ih := runClaims_claimed b hb rest (claim_block c s).2 hrest hpos'
      constructor
      · show ∀ x ∈ resultsFor b (c :: rest)
            ((claim_block c s).1 :: (runClaims rest (claim_block c s).2).1), x = false
        rw [resultsFor_cons]
        by_cases hcb : c = b
        · subst hcb
          simp only [if_pos rfl]
          intro x hx
          rcases List.mem_cons.mp hx with h1 | h2
          · rw [h1]; exact claim_block_false_of_pos hb hpos
          · exact ih.1 x h2
        · simp only [if_neg hcb]
          exact ih.1
      · show countRecords b (runClaims rest (claim_block c s).2).2.durable =
          countRecords b s.durable
        rw [ih.2, hstep]

/-- If `b` is not yet recorded and the call sequence contains a call for `b`,
the first such call returns true, every later one returns false, and exactly
one record of `b` results. -/
theorem runClaims_unclaimed (b : String) (hb : Canonical b) :
    ∀ (calls : List String) (s : Store), (∀ c ∈ calls, pyStrip c = c) →
      countRecords b s.durable = 0 → b ∈ calls →
      ∃ tail, resultsFor b calls (runClaims calls s).1 = true :: tail ∧
        (∀ x ∈ tail, x = false) ∧
        countRecords b (runClaims calls s).2.durable = 1
  | [], _, _, _, hmem => absurd hmem (List.not_mem_nil b)
  | c :: rest, s, hcanon, hzero, hmem => by
      have hc : pyStrip c = c := hcanon c (List.mem_cons_self c rest)
      have hrest : ∀ x ∈ rest, pyStrip x = x := fun x hx =>
        hcanon x (List.mem_cons_of_mem c hx)
      by_cases hcb : c = b
      · subst hcb
        have htrue : (claim_block c s).1 = true :=
          (claim_block_true_iff hb s).mpr hzero
        have hone : countRecords c (claim_block c s).2.durable = 1 := by
          rw [countRecords_claim c c hc s]
          simp [htrue, hzero]
        have hclaimed := runClaims_claimed c hb rest (claim_block c s).2 hrest
          (by omega)
        refine ⟨resultsFor c rest (runClaims rest (claim_block c s).2).1, ?_, ?_, ?_⟩
        · show resultsFor c (c :: rest)
            ((claim_block c s).1 :: (runClaims rest (claim_block c s).2).1) = _
          rw [resultsFor_cons, if_pos rfl, htrue]
        · exact hclaimed.1
        · show countRecords c (runClaims rest (claim_block c s).2).2.durable = 1
          rw [hclaimed.2, hone]
      · have hmem' : b ∈ rest := by
          rcases List.mem_cons.mp hmem with h1 | h2
          · exact absurd h1.symm hcb
          · exact h2
        have hstep : countRecords b (claim_block c s).2.durable = 0 := by
          rw [countRecords_claim b c hc s]
          simp [hcb, hzero]
        obtain ⟨tail, ht1, ht2, ht3⟩ :=
          runClaims_unclaimed b hb rest (claim_block c s).2 hrest hstep hmem'
        refine ⟨tail, ?_, ht2, ?_⟩
        · show resultsFor b (c :: rest)
            ((claim_block c s).1 :: (runClaims rest (claim_block c s).2).1) = _
          rw [resultsFor_cons, if_neg hcb, ht1]
        · exact ht3

/-! ## Claim theorems -/

/-- C1: for every canonical Block string, across any sequence of
claim_block calls sharing the durable file, starting from a durable state
holding at most one record of the Block, and containing at least one call
for it: at most one call for the Block returns true, every call for the
Block after a true one returns false, and the durable store ends with
exactly one record line for the Block. -/
theorem C1_at_most_one_grant (b : String) (calls : List String) (s : Store)
    (hb : Canonical b) (hcalls : ∀ c ∈ calls, pyStrip c = c)
    (hcount : countRecords b s.durable ≤ 1) (hmem : b ∈ calls) :
    (resultsFor b calls (runClaims calls s).1).count true ≤ 1
    ∧ (∀ i j, i < j →
        (resultsFor b calls (runClaims calls s).1).get? i = some true →
        ∀ x, (resultsFor b calls (runClaims calls s).1).get? j = some x →
          x = false)
    ∧ countRecords b (runClaims calls s).2.durable = 1 := by
  rcases Nat.eq_zero_or_pos (countRecords b s.durable) with hz | hpos
  · obtain ⟨tail, h1, h2, h3⟩ := runClaims_unclaimed b hb calls s hcalls hz hmem
    refine ⟨?_, ?_, h3⟩
    · rw [h1]
      have htail : tail.count true = 0 := by
        rw [List.count_eq_zero]
        intro hmemt
        exact absurd (h2 true hmemt) (by simp)
      simp [List.count_cons, htail]
    · intro i j hij hi x hx
      rw [h1] at hx
      match j, hij with
      | jj + 1, _ =>
        rw [List.get?_cons_succ] at hx
        exact h2 x (List.get?_mem hx)
  · have hall := runClaims_claimed b hb calls s hcalls hpos
    refine ⟨?_, ?_, ?_⟩
    · have : (resultsFor b calls (runClaims calls s).1).count true = 0 := by
        rw [List.count_eq_zero]
        intro hmemt
        exact absurd (hall.1 true hmemt) (by simp)
      omega
    · intro i j hij hi x hx
      exact hall.1 x (List.get?_mem hx)
    · rw [hall.2]; omega

theorem C1_witness :
    (resultsFor "93.184.0.0/24" ["93.184.0.0/24", "93.184.0.0/24"]
        (runClaims ["93.184.0.0/24", "93.184.0.0/24"] ⟨[], ∅⟩).1).count true ≤ 1
    ∧ countRecords "93.184.0.0/24"
        (runClaims ["93.184.0.0/24", "93.184.0.0/24"] ⟨[], ∅⟩).2.durable = 1 := by
  have h := C1_at_most_one_grant "93.184.0.0/24"
    ["93.184.0.0/24", "93.184.0.0/24"] ⟨[], ∅⟩
    (by decide) (by decide) (by decide) (by decide)
  exact ⟨h.1, h.2.2⟩

/-- C2: claim_block returns true and appends exactly one line holding the
canonical Block string to the durable store iff no record of that string is
present at check time; on false the store is completely unchanged. -/
theorem C2_claim_block_transition (b : String) (s : Store) (hb : Canonical b) :
    ((claim_block b s).1 = true ↔ countRecords b s.durable = 0)
    ∧ ((claim_block b s).1 = true →
        (claim_block b s).2.durable = s.durable ++ [b])
    ∧ ((claim_block b s).1 = false → (claim_block b s).2 = s) :=
  ⟨claim_block_true_iff hb s,
   fun h => claim_block_true_store h,
   fun h => claim_block_false_store h⟩

theorem C2_witness :
    (((claim_block "93.184.0.0/24" ⟨["10.0.0.0/8"], ∅⟩).1 = true ↔
        countRecords "93.184.0.0/24" ["10.0.0.0/8"] = 0)
      ∧ ((claim_block "93.184.0.0/24" ⟨["10.0.0.0/8"], ∅⟩).1 = true →
          (claim_block "93.184.0.0/24" ⟨["10.0.0.0/8"], ∅⟩).2.durable =
            ["10.0.0.0/8"] ++ ["93.184.0.0/24"])
      ∧ ((claim_block "93.184.0.0/24" ⟨["10.0.0.0/8"], ∅⟩).1 = false →
          (claim_block "93.184.0.0/24" ⟨["10.0.0.0/8"], ∅⟩).2 =
            ⟨["10.0.0.0/8"], ∅⟩)) :=
  C2_claim_block_transition "93.184.0.0/24" ⟨["10.0.0.0/8"], ∅⟩ (by decide)

theorem runClaims_all_fresh :
    ∀ (bs : List String) (s : Store), (∀ b ∈ bs, Canonical b) → bs.Nodup →
      (∀ b ∈ bs, countRecords b s.durable = 0) →
      ((runClaims bs s).1.all (fun x => x) = true ∧
        (runClaims bs s).2.durable = s.durable ++ bs)
  | [], s, _, _, _ => by simp [runClaims]
  | b :: rest, s, hcanon, hnd, hzero => by
      have hb : Canonical b := hcanon b (List.mem_cons_self b rest)
      have htrue : (claim_block b s).1 = true :=
        (claim_block_true_iff hb s).mpr (hzero b (List.mem_cons_self b rest))
      have hdur : (claim_block b s).2.durable = s.durable ++ [b] :=
        claim_block_true_store htrue
      have hcanon' : ∀ c ∈ rest, Canonical c := fun c hc =>
        hcanon c (List.mem_cons_of_mem b hc)
      have hzero' : ∀ c ∈ rest, countRecords c (claim_block b s).2.durable = 0 := by
        intro c hc
        rw [hdur, countRecords_append_single, hb.1]
        have hbc : b ≠ c := fun he => (List.nodup_cons.mp hnd).1 (he ▸ hc)
        rw [hzero c (List.mem_cons_of_mem b hc)]
        simp [hbc]
      have ih := runClaims_all_fresh rest (claim_block b s).2 hcanon'
        (List.nodup_cons.mp hnd).2 hzero'
      constructor
      · show ((claim_block b s).1 :: (runClaims rest (claim_block b s).2).1).all
          (fun x => x) = true
        simp only [List.all_cons, htrue, Bool.true_and]
        exact ih.1
      · show (runClaims rest (claim_block b s).2).2.durable = s.durable ++ (b :: rest)
        rw [ih.2, hdur]
        simp

theorem consumedOf_canonical (bs : List String) (hbs : ∀ b ∈ bs, Canonical b) :
    consumedOf bs = bs.toFinset := by
  unfold consumedOf
  have hmap : bs.map pyStrip = bs := by
    have h1 : bs.map pyStrip = bs.map id :=
      List.map_congr_left (fun a ha => (hbs a ha).1)
    rw [h1, List.map_id]
  rw [hmap]
  have hfil : bs.filter (fun l => l != "") = bs := by
    rw [List.filter_eq_self]
    intro a ha
    simpa using (hbs a ha).2
  rw [hfil]

/-- C4: N successful claims of distinct canonical Blocks from an empty
store leave a durable file of exactly those N lines; reloading it in a
fresh Claim Store reproduces exactly that set in the in-memory mirror, and
every one of those Blocks is subsequently refused by claim_block. -/
theorem C4_restart_roundtrip (bs : List String)
    (hbs : ∀ b ∈ bs, Canonical b) (hnd : bs.Nodup) :
    (runClaims bs ⟨[], ∅⟩).1.all (fun x => x) = true
    ∧ (runClaims bs ⟨[], ∅⟩).2.durable = bs
    ∧ (load_progress ⟨(runClaims bs ⟨[], ∅⟩).2.durable, ∅⟩).mirror = bs.toFinset
    ∧ ∀ b ∈ bs,
        (claim_block b (load_progress ⟨(runClaims bs ⟨[], ∅⟩).2.durable, ∅⟩)).1
          = false := by
  have hrun := runClaims_all_fresh bs ⟨[], ∅⟩ hbs hnd (by
    intro b hb
    simp [countRecords])
  have hdur : (runClaims bs ⟨[], ∅⟩).2.durable = bs := by
    rw [hrun.2]; simp
  refine ⟨hrun.1, hdur, ?_, ?_⟩
  · show ((⟨(runClaims bs ⟨[], ∅⟩).2.durable, ∅⟩ : Store).mirror ∪
      consumedOf (⟨(runClaims bs ⟨[], ∅⟩).2.durable, ∅⟩ : Store).durable) = bs.toFinset
    rw [show (⟨(runClaims bs ⟨[], ∅⟩).2.durable, ∅⟩ : Store).durable =
      (runClaims bs ⟨[], ∅⟩).2.durable from rfl, hdur, consumedOf_canonical bs hbs]
    simp
  · intro b hb
    have hmemc : b ∈ consumedOf
        (load_progress ⟨(runClaims bs ⟨[], ∅⟩).2.durable, ∅⟩).durable := by
      show b ∈ consumedOf (runClaims bs ⟨[], ∅⟩).2.durable
      rw [hdur, consumedOf_canonical bs hbs, List.mem_toFinset]
      exact hb
    unfold claim_block
    simp [hmemc]

theorem C4_witness :
    (runClaims ["1.2.3.0/24", "4.5.6.0/24"] ⟨[], ∅⟩).1.all (fun x => x) = true
    ∧ (runClaims ["1.2.3.0/24", "4.5.6.0/24"] ⟨[], ∅⟩).2.durable =
        ["1.2.3.0/24", "4.5.6.0/24"]
    ∧ (load_progress
        ⟨(runClaims ["1.2.3.0/24", "4.5.6.0/24"] ⟨[], ∅⟩).2.durable, ∅⟩).mirror =
        (["1.2.3.0/24", "4.5.6.0/24"] : List String).toFinset := by
  have h := C4_restart_roundtrip ["1.2.3.0/24", "4.5.6.0/24"]
    (by decide) (by decide)
  exact ⟨h.1, h.2.1, h.2.2.1⟩

theorem durable_extend_claim (b : String) (s : Store) :
    ∃ t, (claim_block b s).2.durable = s.durable ++ t := by
  rcases claim_block_durable_cases b s with h | h
  · exact ⟨[], by simp [h]⟩
  · exact ⟨[b], h⟩

theorem durable_extend_sysop (op : SysOp) (s : SysState) :
    ∃ t, (applySysOp op s).store.durable = s.store.durable ++ t := by
  cases op with
  | claim b => exact durable_extend_claim b s.store
  | load => exact ⟨[], by simp [applySysOp, load_progress]⟩
  | recordFound ip phase => exact ⟨[], by simp [applySysOp]⟩

theorem durable_extend_sysops :
    ∀ (ops : List SysOp) (s : SysState),
      ∃ t, (applySysOps ops s).store.durable = s.store.durable ++ t
  | [], s => ⟨[], by simp [applySysOps]⟩
  | op :: rest, s => by
      obtain ⟨t1, h1⟩ := durable_extend_sysop op s
      obtain ⟨t2, h2⟩ := durable_extend_sysops rest (applySysOp op s)
      refine ⟨t1 ++ t2, ?_⟩
      show (applySysOps rest (applySysOp op s)).store.durable = _
      rw [h2, h1, List.append_assoc]

theorem durable_extend_wstep (P : WParams) (s : WState) :
    ∃ t, (wstep P s).store.durable = s.store.durable ++ t := by
  obtain ⟨pc, flag, store, idx, tr⟩ := s
  cases pc with
  | loopTop => by_cases hf : flag <;> exact ⟨[], by simp [wstep, hf]⟩
  | acquireEntry => by_cases hf : flag <;> exact ⟨[], by simp [wstep, hf]⟩
  | attempt k =>
      cases k with
      | zero => exact ⟨[], by simp [wstep]⟩
      | succ k =>
          by_cases hr : (claim_block (P.cands idx) store).1
          · obtain ⟨t, ht⟩ := durable_extend_claim (P.cands idx) store
            exact ⟨t, by simp [wstep, hr, ht]⟩
          · obtain ⟨t, ht⟩ := durable_extend_claim (P.cands idx) store
            exact ⟨t, by simp [wstep, hr, ht]⟩
  | scanning b k =>
      cases k with
      | zero => exact ⟨[], by simp [wstep]⟩
      | succ k => exact ⟨[], by simp [wstep]⟩
  | done => exact ⟨[], by simp [wstep]⟩

theorem durable_extend_move (P : WParams) (s : WState) (m : Move) :
    ∃ t, (applyMove P s m).store.durable = s.store.durable ++ t := by
  cases m with
  | env => exact ⟨[], by simp [applyMove]⟩
  | force => exact ⟨[], by simp [applyMove]⟩
  | work => exact durable_extend_wstep P s

theorem durable_extend_runW :
    ∀ (P : WParams) (moves : List Move) (s : WState),
      ∃ t, (runW P moves s).store.durable = s.store.durable ++ t
  | _, [], s => ⟨[], by simp [runW]⟩
  | P, m :: rest, s => by
      obtain ⟨t1, h1⟩ := durable_extend_move P s m
      obtain ⟨t2, h2⟩ := durable_extend_runW P rest (applyMove P s m)
      refine ⟨t1 ++ t2, ?_⟩
      show (runW P rest (applyMove P s m)).store.durable = _
      rw [h2, h1, List.append_assoc]

theorem countRecords_mono_append (b : String) (d t : List String) :
    countRecords b d ≤ countRecords b (d ++ t) := by
  unfold countRecords
  rw [List.countP_append]
  omega

/-- C3: no operation of the system removes or mutates an existing Claim
Record.  Every coordinator operation and every interleaved worker run
(including graceful and forced shutdown moves) leaves the previous durable
contents as a prefix, so the set of recorded Blocks grows monotonically,
and a Block recorded before a forced cancellation is still recorded
afterwards. -/
theorem C3_claim_records_permanent :
    (∀ (op : SysOp) (s : SysState),
        ∃ t, (applySysOp op s).store.durable = s.store.durable ++ t)
    ∧ (∀ (ops : List SysOp) (s : SysState),
        ∃ t, (applySysOps ops s).store.durable = s.store.durable ++ t)
    ∧ (∀ (P : WParams) (moves : List Move) (w : WState),
        ∃ t, (runW P moves w).store.durable = w.store.durable ++ t)
    ∧ (∀ (P : WParams) (moves : List Move) (w : WState) (b : String),
        0 < countRecords b w.store.durable →
        0 < countRecords b (runW P moves w).store.durable) := by
  refine ⟨durable_extend_sysop, durable_extend_sysops, durable_extend_runW, ?_⟩
  intro P moves w b hpos
  obtain ⟨t, ht⟩ := durable_extend_runW P moves w
  rw [ht]
  have := countRecords_mono_append b w.store.durable t
  omega

theorem C3_witness :
    0 < countRecords "1.0.0.0/24"
      (runW ⟨fun _ => "2.0.0.0/24", 1⟩ [Move.work, Move.force]
        ⟨WPc.scanning "1.0.0.0/24" 5, false, ⟨["1.0.0.0/24"], ∅⟩, 0, []⟩).store.durable :=
  C3_claim_records_permanent.2.2.2 ⟨fun _ => "2.0.0.0/24", 1⟩
    [Move.work, Move.force]
    ⟨WPc.scanning "1.0.0.0/24" 5, false, ⟨["1.0.0.0/24"], ∅⟩, 0, []⟩
    "1.0.0.0/24" (by decide)

/-- C9: exactly one Result Sink line equal to the probed address is
appended when the probe reports success and nothing is appended on
failure; every exception raised inside the probe attempt is mapped to the
failure outcome by scan_quic_server instead of propagating, and only a
completed handshake counts as success. -/
theorem C9_probe_results (outcome : ProbeOutcome) (ip : String)
    (results : List String) :
    (scan_quic_server outcome = true →
      scan_ip_two_phase outcome ip results = results ++ [ip])
    ∧ (scan_quic_server outcome = false →
      scan_ip_two_phase outcome ip results = results)
    ∧ (scan_quic_server outcome = true ↔
        outcome = ProbeOutcome.handshakeCompleted)
    ∧ (∀ m, scan_quic_server_body outcome = Except.error m →
        scan_quic_server outcome = false) := by
  refine ⟨?_, ?_, ?_, ?_⟩
  · intro h
    simp [scan_ip_two_phase, h, record_found_server]
  · intro h
    simp [scan_ip_two_phase, h]
  · cases outcome <;> simp [scan_quic_server, scan_quic_server_body]
  · intro m hm
    cases outcome <;> simp_all [scan_quic_server, scan_quic_server_body]

theorem C9_witness :
    scan_ip_two_phase (ProbeOutcome.osError "unreachable") "5.6.7.8" [] = []
    ∧ scan_ip_two_phase ProbeOutcome.handshakeCompleted "5.6.7.8" [] = ["5.6.7.8"] :=
  ⟨(C9_probe_results (ProbeOutcome.osError "unreachable") "5.6.7.8" []).2.1
      (by decide),
   (C9_probe_results ProbeOutcome.handshakeCompleted "5.6.7.8" []).1 (by decide)⟩

theorem claim_attempts_len (P : WParams) :
    ∀ (k idx : Nat) (st : Store),
      (claim_attempts P k idx st).callResults.length ≤ k
  | 0, _, _ => by simp [claim_attempts]
  | k + 1, idx, st => by
      show (claim_attempts P (k + 1) idx st).callResults.length ≤ k + 1
      unfold claim_attempts
      by_cases hr : (claim_block (P.cands idx) st).1
      · simp [hr]
      · have ih := claim_attempts_len P k (idx + 1) (claim_block (P.cands idx) st).2
        simp only [hr]
        simp only [Bool.false_eq_true, if_false, List.length_cons]
        omega

theorem claim_attempts_all_false (P : WParams) :
    ∀ (k idx : Nat) (st : Store),
      (claim_attempts P k idx st).callResults.all (fun r => !r) = true →
      (claim_attempts P k idx st).result = none
  | 0, _, _, _ => rfl
  | k + 1, idx, st, hall => by
      unfold claim_attempts at hall ⊢
      by_cases hr : (claim_block (P.cands idx) st).1
      · simp [hr] at hall
      · simp only [hr, Bool.false_eq_true, if_false] at hall ⊢
        have ih := claim_attempts_all_false P k (idx + 1)
          (claim_block (P.cands idx) st).2
        simp only [List.all_cons, Bool.not_false, Bool.true_and] at hall
        exact ih hall

/-- C7: one acquisition cycle of Worker.claim_unclaimed_block performs at
most MAX_CLAIM_ATTEMPTS = 1000 sample-and-claim attempts; when every
attempt returns false the cycle returns None, and the run loop then stops
with the saturation exit, a normal non-error completion. -/
theorem C7_attempt_cap (P : WParams) (idx : Nat) (st : Store) :
    (claim_unclaimed_block P false idx st).callResults.length ≤ MAX_CLAIM_ATTEMPTS
    ∧ MAX_CLAIM_ATTEMPTS = 1000
    ∧ ((claim_unclaimed_block P false idx st).callResults.all (fun r => !r) = true →
        (claim_unclaimed_block P false idx st).result = none)
    ∧ (∀ fuel, (claim_unclaimed_block P false idx st).result = none →
        (worker_run P (fuel + 1) false idx st).1 = ExitKind.saturated) := by
  have hcu : claim_unclaimed_block P false idx st =
      claim_attempts P MAX_CLAIM_ATTEMPTS idx st := by
    simp [claim_unclaimed_block]
  refine ⟨?_, rfl, ?_, ?_⟩
  · rw [hcu]; exact claim_attempts_len P MAX_CLAIM_ATTEMPTS idx st
  · rw [hcu]; exact claim_attempts_all_false P MAX_CLAIM_ATTEMPTS idx st
  · intro fuel hnone
    show (worker_run P (fuel + 1) false idx st).1 = ExitKind.saturated
    unfold worker_run
    simp [hnone]

theorem C7_witness :
    (claim_unclaimed_block ⟨fun _ => "1.0.0.0/24", 1⟩ false 0
        ⟨["1.0.0.0/24"], ∅⟩).callResults.length ≤ MAX_CLAIM_ATTEMPTS
    ∧ (worker_run ⟨fun _ => "1.0.0.0/24", 1⟩ 1 false 0
        ⟨["1.0.0.0/24"], ∅⟩).1 = ExitKind.saturated := by
  have h := C7_attempt_cap ⟨fun _ => "1.0.0.0/24", 1⟩ 0 ⟨["1.0.0.0/24"], ∅⟩
  exact ⟨h.1, h.2.2.2 0 (by decide)⟩

theorem trace_extend_wstep (P : WParams) (s : WState) :
    ∃ t, (wstep P s).trace = s.trace ++ t := by
  obtain ⟨pc, flag, store, idx, tr⟩ := s
  cases pc with
  | loopTop =>
      by_cases hf : flag
      · exact ⟨[WEvent.exited], by simp [wstep, hf]⟩
      · exact ⟨[], by simp [wstep, hf]⟩
  | acquireEntry =>
      by_cases hf : flag
      · exact ⟨[WEvent.exited], by simp [wstep, hf]⟩
      · exact ⟨[], by simp [wstep, hf]⟩
  | attempt k =>
      cases k with
      | zero => exact ⟨[WEvent.exited], by simp [wstep]⟩
      | succ k =>
          by_cases hr : (claim_block (P.cands idx) store).1
          · exact ⟨[WEvent.claimCall (P.cands idx) true,
              WEvent.scanStart (P.cands idx)], by simp [wstep, hr]⟩
          · exact ⟨[WEvent.claimCall (P.cands idx) false], by simp [wstep, hr]⟩
  | scanning b k =>
      cases k with
      | zero => exact ⟨[WEvent.scanDone b], by simp [wstep]⟩
      | succ k => exact ⟨[WEvent.probeOne b], by simp [wstep]⟩
  | done => exact ⟨[], by simp [wstep]⟩

theorem trace_extend_move (P : WParams) (s : WState) (m : Move) :
    ∃ t, (applyMove P s m).trace = s.trace ++ t := by
  cases m with
  | env => exact ⟨[WEvent.flagSet], by simp [applyMove]⟩
  | force => exact ⟨[WEvent.cancelled], by simp [applyMove]⟩
  | work => exact trace_extend_wstep P s

theorem trace_extend_runW :
    ∀ (P : WParams) (moves : List Move) (s : WState),
      ∃ t, (runW P moves s).trace = s.trace ++ t
  | _, [], s => ⟨[], by simp [runW]⟩
  | P, m :: rest, s => by
      obtain ⟨t1, h1⟩ := trace_extend_move P s m
      obtain ⟨t2, h2⟩ := trace_extend_runW P rest (applyMove P s m)
      refine ⟨t1 ++ t2, ?_⟩
      show (runW P rest (applyMove P s m)).trace = _
      rw [h2, h1, List.append_assoc]

theorem quiescent_step (P : WParams) (s : WState) (m : Move)
    (hf : s.flag = true)
    (hpc : s.pc = WPc.loopTop ∨ s.pc = WPc.acquireEntry ∨ s.pc = WPc.done) :
    (applyMove P s m).flag = true
    ∧ ((applyMove P s m).pc = WPc.loopTop ∨
        (applyMove P s m).pc = WPc.acquireEntry ∨
        (applyMove P s m).pc = WPc.done)
    ∧ claimCallCount (applyMove P s m).trace = claimCallCount s.trace := by
  cases m with
  | env =>
      refine ⟨by simp [applyMove], by simp [applyMove, hpc], ?_⟩
      simp [applyMove, claimCallCount, List.countP_append, isClaimCall]
  | force =>
      refine ⟨by simp [applyMove, hf], by simp [applyMove], ?_⟩
      simp [applyMove, claimCallCount, List.countP_append, isClaimCall]
  | work =>
      rcases hpc with h | h | h <;>
        refine ⟨by simp [applyMove, wstep, h, hf], by simp [applyMove, wstep, h, hf], ?_⟩ <;>
        simp [applyMove, wstep, h, hf, claimCallCount, List.countP_append, isClaimCall]

theorem quiescent_runW (P : WParams) :
    ∀ (moves : List Move) (s : WState), s.flag = true →
      (s.pc = WPc.loopTop ∨ s.pc = WPc.acquireEntry ∨ s.pc = WPc.done) →
      claimCallCount (runW P moves s).trace = claimCallCount s.trace
  | [], _, _, _ => rfl
  | m :: rest, s, hf, hpc => by
      obtain ⟨h1, h2, h3⟩ := quiescent_step P s m hf hpc
      have ih := quiescent_runW P rest (applyMove P s m) h1 h2
      show claimCallCount (runW P rest (applyMove P s m)).trace = _
      rw [ih, h3]

theorem scanning_completes (P : WParams) :
    ∀ (moves : List Move) (b : String) (n : Nat) (s : WState),
      s.pc = WPc.scanning b n → Move.force ∉ moves →
      n + 1 ≤ workMoveCount moves →
      WEvent.scanDone b ∈ (runW P moves s).trace
  | [], b, n, s, _, _, hcount => by
      simp [workMoveCount] at hcount
  | m :: rest, b, n, s, hpc, hforce, hcount => by
      have hforce' : Move.force ∉ rest := fun h => hforce (List.mem_cons_of_mem m h)
      cases m with
      | env =>
          have hpc' : (applyMove P s Move.env).pc = WPc.scanning b n := by
            simp [applyMove, hpc]
          have hw : workMoveCount (Move.env :: rest) = workMoveCount rest := by
            simp [workMoveCount, List.countP_cons]
          exact scanning_completes P rest b n _ hpc' hforce' (by omega)
      | force => exact absurd (List.mem_cons_self _ _) hforce
      | work =>
          have hw : workMoveCount (Move.work :: rest) = workMoveCount rest + 1 := by
            simp [workMoveCount, List.countP_cons]
          cases n with
          | zero =>
              have htr : (applyMove P s Move.work).trace =
                  s.trace ++ [WEvent.scanDone b] := by
                simp [applyMove, wstep, hpc]
              obtain ⟨t, ht⟩ := trace_extend_runW P rest (applyMove P s Move.work)
              show WEvent.scanDone b ∈ (runW P rest (applyMove P s Move.work)).trace
              rw [ht, htr]
              simp
          | succ k =>
              have hpc' : (applyMove P s Move.work).pc = WPc.scanning b k := by
                simp [applyMove, wstep, hpc]
              exact scanning_completes P rest b k _ hpc' hforce' (by omega)

/-- C6 counterexample: the graceful-shutdown signal only gates the top of
the run loop and the entry of claim_unclaimed_block; set between two claim
attempts of one acquisition cycle, the cycle keeps calling claim_block,
claims a new Block and scans it.  Concretely: the first candidate is
already claimed, the signal handler runs, and the second attempt still
claims and scans a new Block, so claim_block is invoked anew after the
signal and a new Block is accepted for scanning. -/
theorem C6_counterexample :
    (runW ⟨fun i => if i == 0 then "1.0.0.0/24" else "2.0.0.0/24", 1⟩
        [Move.work, Move.work, Move.work, Move.env, Move.work, Move.work, Move.work]
        ⟨WPc.loopTop, false, ⟨["1.0.0.0/24"], ∅⟩, 0, []⟩).trace =
      [WEvent.claimCall "1.0.0.0/24" false, WEvent.flagSet,
       WEvent.claimCall "2.0.0.0/24" true, WEvent.scanStart "2.0.0.0/24",
       WEvent.probeOne "2.0.0.0/24", WEvent.scanDone "2.0.0.0/24"]
    ∧ (runW ⟨fun i => if i == 0 then "1.0.0.0/24" else "2.0.0.0/24", 1⟩
        [Move.work, Move.work, Move.work, Move.env, Move.work, Move.work, Move.work]
        ⟨WPc.loopTop, false, ⟨["1.0.0.0/24"], ∅⟩, 0, []⟩).trace.get? 1 =
        some WEvent.flagSet
    ∧ (runW ⟨fun i => if i == 0 then "1.0.0.0/24" else "2.0.0.0/24", 1⟩
        [Move.work, Move.work, Move.work, Move.env, Move.work, Move.work, Move.work]
        ⟨WPc.loopTop, false, ⟨["1.0.0.0/24"], ∅⟩, 0, []⟩).trace.get? 2 =
        some (WEvent.claimCall "2.0.0.0/24" true) := by
  refine ⟨?_, ?_, ?_⟩ <;> decide

/-- C6 amended: the worker checks the graceful-shutdown signal only at the
top of the run loop and at entry to an acquisition cycle.  If the signal
is set when the worker is at such a check point, no further claim_block
call ever happens; and a Block whose scan is in flight is scanned to
completion under any interleaving of graceful signals (no forced
cancellation), once enough worker steps run. -/
theorem C6_no_new_cycle_after_signal (P : WParams) (moves : List Move) (s : WState) :
    (s.flag = true → (s.pc = WPc.loopTop ∨ s.pc = WPc.acquireEntry) →
      claimCallCount (runW P moves s).trace = claimCallCount s.trace)
    ∧ (∀ b n, s.pc = WPc.scanning b n → Move.force ∉ moves →
        n + 1 ≤ workMoveCount moves →
        WEvent.scanDone b ∈ (runW P moves s).trace) := by
  constructor
  · intro hf hpc
    refine quiescent_runW P moves s hf ?_
    rcases hpc with h | h
    · exact Or.inl h
    · exact Or.inr (Or.inl h)
  · intro b n hpc hforce hcount
    exact scanning_completes P moves b n s hpc hforce hcount

theorem C6_witness :
    claimCallCount (runW ⟨fun _ => "7.7.7.0/24", 2⟩ [Move.work, Move.work]
      ⟨WPc.loopTop, true, ⟨[], ∅⟩, 0, []⟩).trace = 0
    ∧ WEvent.scanDone "7.7.7.0/24" ∈
        (runW ⟨fun _ => "7.7.7.0/24", 2⟩ [Move.work, Move.env, Move.work]
          ⟨WPc.scanning "7.7.7.0/24" 1, false, ⟨[], ∅⟩, 0, []⟩).trace := by
  constructor
  · have h := (C6_no_new_cycle_after_signal ⟨fun _ => "7.7.7.0/24", 2⟩
      [Move.work, Move.work] ⟨WPc.loopTop, true, ⟨[], ∅⟩, 0, []⟩).1 rfl (Or.inl rfl)
    simpa [claimCallCount] using h
  · exact (C6_no_new_cycle_after_signal ⟨fun _ => "7.7.7.0/24", 2⟩
      [Move.work, Move.env, Move.work]
      ⟨WPc.scanning "7.7.7.0/24" 1, false, ⟨[], ∅⟩, 0, []⟩).2
      "7.7.7.0/24" 1 rfl (by decide) (by decide)

theorem is_valid_block_spec (blk : IPv4Network) (h : is_valid_block blk = true) :
    ∀ r ∈ SKIP_RANGES, ¬ overlaps blk r ∧ ¬ subnet_of blk r := by
  intro r hr
  have h2 := List.all_eq_true.mp h r hr
  simp only [Bool.not_eq_true', Bool.or_eq_false_iff, decide_eq_false_iff_not] at h2
  exact ⟨h2.2, h2.1⟩

/-- C5: every Block returned by generate_random_block is eligible: whatever
random 32-bit values are drawn, the returned Block neither overlaps nor is
a subnet of any entry of SKIP_RANGES (which includes 10.0.0.0/8). -/
theorem C5_generated_block_eligible (p : Nat) (draws : List Nat)
    (blk : IPv4Network) (h : generate_random_block p draws = some blk) :
    ∀ r ∈ SKIP_RANGES, ¬ overlaps blk r ∧ ¬ subnet_of blk r := by
  induction draws with
  | nil => simp [generate_random_block] at h
  | cons r rest ih =>
      simp only [generate_random_block] at h
      cases hstrict : ipv4_network_strict (r &&& ipMask p) p with
      | none =>
          rw [hstrict] at h
          exact ih h
      | some block =>
          rw [hstrict] at h
          dsimp only at h
          by_cases hval : is_valid_block block
          · rw [if_pos hval] at h
            obtain rfl : block = blk := Option.some.inj h
            exact is_valid_block_spec _ hval
          · rw [if_neg hval] at h
            exact ih h

theorem C5_witness :
    generate_random_block 24 [1572339712] = some ⟨1572339712, 24⟩
    ∧ ∀ r ∈ SKIP_RANGES,
        ¬ overlaps ⟨1572339712, 24⟩ r ∧ ¬ subnet_of ⟨1572339712, 24⟩ r :=
  ⟨by decide,
   C5_generated_block_eligible 24 [1572339712] ⟨1572339712, 24⟩ (by decide)⟩

theorem land_mask_eq (r p : Nat) (hr : r < 2 ^ 32) (hp : p ≤ 32) :
    r &&& ipMask p = 2 ^ (32 - p) * (r / 2 ^ (32 - p)) := by
  have hmask : ipMask p = (2 ^ p - 1) <<< (32 - p) := by
    unfold ipMask
    rw [Nat.one_shiftLeft, Nat.one_shiftLeft, Nat.shiftLeft_eq,
      Nat.sub_mul, Nat.one_mul, ← Nat.pow_add]
    congr 2
    omega
  apply Nat.eq_of_testBit_eq
  intro i
  rw [show 2 ^ (32 - p) * (r / 2 ^ (32 - p)) = (r >>> (32 - p)) <<< (32 - p) by
    rw [Nat.shiftLeft_eq, Nat.shiftRight_eq_div_pow, Nat.mul_comm]]
  rw [Nat.testBit_and, hmask, Nat.testBit_shiftLeft, Nat.testBit_shiftLeft,
    Nat.testBit_shiftRight, Nat.testBit_two_pow_sub_one]
  by_cases hik : 32 - p ≤ i
  · have h2 : 32 - p + (i - (32 - p)) = i := by omega
    rw [h2]
    by_cases hi32 : i < 32
    · have h1 : i - (32 - p) < p := by omega
      simp [ge_iff_le, hik, h1, Bool.and_comm]
    · have hrf : r.testBit i = false :=
        Nat.testBit_lt_two_pow
          (lt_of_lt_of_le hr (Nat.pow_le_pow_right (by omega) (by omega)))
      simp [ge_iff_le, hik, hrf]
  · simp [ge_iff_le, hik]

/-- C10: for every 32-bit value drawn and every prefix length up to 32,
masking with the precomputed mask zeroes exactly the host bits, the strict
IPv4Network construction succeeds (so the exception-retry branch of
generate_random_block is unreachable), and the constructed candidate Block
contains the drawn address. -/
theorem C10_mask_zeroes_host_bits (r p : Nat) (hr : r < 2 ^ 32) (hp : p ≤ 32) :
    r &&& ipMask p = r - r % 2 ^ (32 - p)
    ∧ ipv4_network_strict (r &&& ipMask p) p = some ⟨r &&& ipMask p, p⟩
    ∧ mem_network ⟨r &&& ipMask p, p⟩ r := by
  have hk : 0 < 2 ^ (32 - p) := Nat.two_pow_pos (32 - p)
  have hland := land_mask_eq r p hr hp
  have hle : 2 ^ (32 - p) * (r / 2 ^ (32 - p)) + r % 2 ^ (32 - p) = r :=
    Nat.div_add_mod r (2 ^ (32 - p))
  have hmod : r % 2 ^ (32 - p) < 2 ^ (32 - p) := Nat.mod_lt _ hk
  set T := 2 ^ (32 - p) * (r / 2 ^ (32 - p)) with hT
  have hm0 : (r &&& ipMask p) % 2 ^ (32 - p) = 0 := by
    rw [hland, hT, Nat.mul_mod_right]
  refine ⟨by omega, ?_, ?_⟩
  · have hbound : r &&& ipMask p < 2 ^ 32 := by omega
    unfold ipv4_network_strict
    rw [if_pos (⟨hbound, hp, hm0⟩ :
      r &&& ipMask p < 2 ^ 32 ∧ p ≤ 32 ∧ (r &&& ipMask p) % 2 ^ (32 - p) = 0)]
  · unfold mem_network broadcast_address num_addresses
    simp only []
    constructor
    · omega
    · omega

theorem C10_witness :
    (1572339790 &&& ipMask 24 = 1572339790 - 1572339790 % 2 ^ (32 - 24))
    ∧ ipv4_network_strict (1572339790 &&& ipMask 24) 24 =
        some ⟨1572339790 &&& ipMask 24, 24⟩
    ∧ mem_network ⟨1572339790 &&& ipMask 24, 24⟩ 1572339790 :=
  C10_mask_zeroes_host_bits 1572339790 24 (by decide) (by decide)

theorem repr_no_dot : ∀ a : Fin 256, ('.' : Char) ∉ (Nat.repr a.val).data := by
  decide

theorem repr_left_inverse :
    ∀ a : Fin 256, digits_to_nat (Nat.repr a.val).data = a.val := by
  decide

theorem repr_inj_octet {a b : Nat} (ha : a < 256) (hb : b < 256)
    (h : Nat.repr a = Nat.repr b) : a = b := by
  have h1 := repr_left_inverse ⟨a, ha⟩
  have h2 := repr_left_inverse ⟨b, hb⟩
  simp only [] at h1 h2
  rw [← h1, ← h2, h]

theorem append_sep_inj {c : Char} :
    ∀ (l1 l2 r1 r2 : List Char), c ∉ l1 → c ∉ l2 →
      l1 ++ c :: r1 = l2 ++ c :: r2 → l1 = l2 ∧ r1 = r2
  | [], [], r1, r2, _, _, h => by simpa using h
  | [], x :: l2, r1, r2, h1, h2, h => by
      injection h with hx htail
      exact absurd (by rw [hx]; exact List.mem_cons_self x l2) h2
  | x :: l1, [], r1, r2, h1, h2, h => by
      injection h with hx htail
      exact absurd (by rw [← hx]; exact List.mem_cons_self x l1) h1
  | x :: l1, y :: l2, r1, r2, h1, h2, h => by
      injection h with hx htail
      have h1' : c ∉ l1 := fun hm => h1 (List.mem_cons_of_mem x hm)
      have h2' : c ∉ l2 := fun hm => h2 (List.mem_cons_of_mem y hm)
      obtain ⟨he1, he2⟩ := append_sep_inj l1 l2 r1 r2 h1' h2' htail
      exact ⟨by rw [hx, he1], he2⟩

theorem ip_to_string_inj {n m : Nat} (hn : n < 2 ^ 32) (hm : m < 2 ^ 32)
    (h : ip_to_string n = ip_to_string m) : n = m := by
  have hd : (ip_to_string n).data = (ip_to_string m).data := by rw [h]
  unfold ip_to_string at hd
  simp only [String.data_append, List.append_assoc,
    (show (("." : String)).data = [('.' : Char)] from rfl),
    List.singleton_append, List.cons_append] at hd
  have hb1 : n / 16777216 % 256 < 256 := Nat.mod_lt _ (by norm_num)
  have hb2 : n / 65536 % 256 < 256 := Nat.mod_lt _ (by norm_num)
  have hb3 : n / 256 % 256 < 256 := Nat.mod_lt _ (by norm_num)
  have hb4 : n % 256 < 256 := Nat.mod_lt _ (by norm_num)
  have hc1 : m / 16777216 % 256 < 256 := Nat.mod_lt _ (by norm_num)
  have hc2 : m / 65536 % 256 < 256 := Nat.mod_lt _ (by norm_num)
  have hc3 : m / 256 % 256 < 256 := Nat.mod_lt _ (by norm_num)
  have hc4 : m % 256 < 256 := Nat.mod_lt _ (by norm_num)
  obtain ⟨he1, hd⟩ := append_sep_inj _ _ _ _
    (repr_no_dot ⟨n / 16777216 % 256, hb1⟩) (repr_no_dot ⟨m / 16777216 % 256, hc1⟩) hd
  obtain ⟨he2, hd⟩ := append_sep_inj _ _ _ _
    (repr_no_dot ⟨n / 65536 % 256, hb2⟩) (repr_no_dot ⟨m / 65536 % 256, hc2⟩) hd
  obtain ⟨he3, he4⟩ := append_sep_inj _ _ _ _
    (repr_no_dot ⟨n / 256 % 256, hb3⟩) (repr_no_dot ⟨m / 256 % 256, hc3⟩) hd
  have ho1 := repr_inj_octet hb1 hc1 (String.ext he1)
  have ho2 := repr_inj_octet hb2 hc2 (String.ext he2)
  have ho3 := repr_inj_octet hb3 hc3 (String.ext he3)
  have ho4 := repr_inj_octet hb4 hc4 (String.ext he4)
  omega

/-- C8: for every prefix length up to 32 and every valid Block of that
prefix length, block_to_ips returns exactly 2^(32-p) address strings with
no duplicates, the i-th being the dotted quad of network address + i, so
the sequence runs in ascending order from the network address through the
broadcast address inclusive. -/
theorem C8_expand_block (block : IPv4Network) (hp : block.prefixlen ≤ 32)
    (hbase : block.network_address < 2 ^ 32)
    (hhost : block.network_address % 2 ^ (32 - block.prefixlen) = 0) :
    (block_to_ips block).length = 2 ^ (32 - block.prefixlen)
    ∧ (block_to_ips block).Nodup
    ∧ ∀ i (h : i < (block_to_ips block).length),
        (block_to_ips block).get ⟨i, h⟩ =
          ip_to_string (block.network_address + i) := by
  obtain ⟨q, hq⟩ := Nat.dvd_of_mod_eq_zero hhost
  have h32 : (2 : Nat) ^ 32 = 2 ^ (32 - block.prefixlen) * 2 ^ block.prefixlen := by
    rw [← pow_add]
    congr 1
    omega
  have hqlt : q < 2 ^ block.prefixlen := by
    by_contra hge
    push_neg at hge
    have hmul : 2 ^ (32 - block.prefixlen) * 2 ^ block.prefixlen ≤
        2 ^ (32 - block.prefixlen) * q := Nat.mul_le_mul_left _ hge
    rw [← h32] at hmul
    omega
  have hsize : block.network_address + 2 ^ (32 - block.prefixlen) ≤ 2 ^ 32 := by
    have hmul : 2 ^ (32 - block.prefixlen) * (q + 1) ≤
        2 ^ (32 - block.prefixlen) * 2 ^ block.prefixlen :=
      Nat.mul_le_mul_left _ (by omega)
    rw [Nat.mul_add, Nat.mul_one, ← h32] at hmul
    omega
  refine ⟨?_, ?_, ?_⟩
  · simp [block_to_ips, num_addresses]
  · apply List.Nodup.map_on _ (List.nodup_range _)
    intro i hi j hj hf
    rw [List.mem_range] at hi hj
    have hik : block.network_address + i < 2 ^ 32 := by
      unfold num_addresses at hi
      omega
    have hjk : block.network_address + j < 2 ^ 32 := by
      unfold num_addresses at hj
      omega
    have := ip_to_string_inj hik hjk hf
    omega
  · intro i h
    simp [block_to_ips]

theorem C8_witness :
    (block_to_ips ⟨1572339712, 30⟩).length = 4
    ∧ (block_to_ips ⟨1572339712, 30⟩).Nodup := by
  have h := C8_expand_block ⟨1572339712, 30⟩ (by decide) (by decide) (by decide)
  refine ⟨?_, h.2.1⟩
  rw [h.1]
  norm_num
